import Mathlib

/-!
Verification of the `rust-grep` command-line tool (src/main.rs) against its
natural-language specification.

Strings are modelled as lists of Unicode scalar values (`List Char`), with
byte positions made explicit through `Char.utf8Size`, because the source
manipulates Rust `&str` slices at byte indices.  Fallible operations
(byte-index slicing, which panics in Rust when an index is out of range or
not a character boundary) return `Option`; `none` models a Rust panic.
Loops of the source are embedded with an explicit fuel argument so that all
definitions compute by kernel reduction; every theorem that depends on a
loop is proved for the exact fuel the embedded caller supplies.
-/

namespace Grep

/-- Character strings; Rust `&str` / `String` viewed as its sequence of chars. -/
abbrev Str := List Char

/-- Byte length of a string under UTF-8, i.e. Rust `str::len`. -/
def utf8Len (s : Str) : Nat := (s.map Char.utf8Size).sum

theorem utf8Len_nil : utf8Len [] = 0 := rfl

theorem utf8Len_cons (c : Char) (s : Str) : utf8Len (c :: s) = c.utf8Size + utf8Len s := by
  simp [utf8Len]

theorem utf8Len_append (a b : Str) : utf8Len (a ++ b) = utf8Len a + utf8Len b := by
  simp [utf8Len]

/-- One character of Rust `str::to_lowercase`.  The model is exact on ASCII
(where Rust performs the basic-latin mapping computed by `Char.toLower`) and
embeds the one multi-character expansion exercised by the counterexamples,
U+0130 LATIN CAPITAL LETTER I WITH DOT ABOVE, which Rust lowercases to `i`
followed by U+0307 COMBINING DOT ABOVE (the documented behavior of
`char::to_lowercase`).  Other non-ASCII mappings — including further
width-changing ones such as U+212A KELVIN SIGN → `k` — are not modelled (the
character is left fixed).  Accordingly, every theorem below whose truth is
sensitive to the folding of non-ASCII characters either restricts its
case-insensitive part to ASCII input (`asciiStr`), where the model is exact,
or is a concrete counterexample evaluated on `İ`; the remaining theorems hold
uniformly in the folding function. -/
def rustLowerChar (c : Char) : List Char :=
  if c = 'İ' then ['i', '̇'] else [Char.toLower c]

/-- Rust `str::to_lowercase` on the char-list model. -/
def toLowerRust (s : Str) : Str := s.flatMap rustLowerChar

theorem toLowerRust_nil : toLowerRust [] = [] := rfl

theorem toLowerRust_cons (c : Char) (s : Str) :
    toLowerRust (c :: s) = rustLowerChar c ++ toLowerRust s := rfl

theorem toLowerRust_append (a b : Str) :
    toLowerRust (a ++ b) = toLowerRust a ++ toLowerRust b := by
  simp [toLowerRust]

theorem rustLowerChar_ne_nil (c : Char) : rustLowerChar c ≠ [] := by
  unfold rustLowerChar
  split <;> simp

theorem toLowerRust_eq_nil_iff (s : Str) : toLowerRust s = [] ↔ s = [] := by
  cases s with
  | nil => simp [toLowerRust]
  | cons c cs =>
    simp only [toLowerRust_cons]
    constructor
    · intro h
      exact absurd (List.append_eq_nil.mp h).1 (rustLowerChar_ne_nil c)
    · intro h
      exact absurd h (by simp)

/-- An ASCII character (code point below 128).  On ASCII characters Rust's
`str::to_lowercase` performs exactly the basic-latin mapping that
`rustLowerChar` embeds, one character to one character of the same single-byte
UTF-8 width, so byte positions computed on the folded string coincide with
byte positions of the original.  Outside ASCII that is not so (lower-casing
can change a character's byte width, as with U+0130 or U+212A), and no
theorem below asserts anything fold-sensitive about such input except the
explicit `İ` counterexamples. -/
def asciiChar (c : Char) : Bool := decide (c.toNat < 128)

/-- A string consisting of ASCII characters only. -/
def asciiStr (s : Str) : Bool := s.all asciiChar

/-- Rust `haystack.find(needle)` on the char-list model, also returning the part
of the haystack after the match: `some (pos, rest)` gives the byte offset of the
first (leftmost) occurrence of `needle` and the haystack suffix following that
occurrence; `none` when there is no occurrence.  Because UTF-8 is
self-synchronizing, byte-level `str::find` only ever matches at character
boundaries, so a character-level search with byte accounting is exact. -/
def splitAtMatch (hay needle : Str) : Option (Nat × Str) :=
  match hay with
  | [] => if needle.isEmpty then some (0, []) else none
  | c :: cs =>
    if needle.isPrefixOf (c :: cs) then some (0, List.drop needle.length (c :: cs))
    else (splitAtMatch cs needle).map (fun pr => (pr.1 + c.utf8Size, pr.2))

/-- `contains` from src/main.rs lines 152-158: lowercases the line first when
case-insensitive, then tests substring containment of the (already effective)
pattern. -/
def contains (line pattern : Str) (case_insensitive : Bool) : Bool :=
  if case_insensitive then (splitAtMatch (toLowerRust line) pattern).isSome
  else (splitAtMatch line pattern).isSome

/-- The match predicate as composed by `search_file` (src/main.rs lines 115-123):
the pattern is lowercased once per file when case-insensitive, then `contains`
is applied to each line. -/
def isMatch (line pattern : Str) (case_insensitive : Bool) : Bool :=
  contains line (if case_insensitive then toLowerRust pattern else pattern) case_insensitive

theorem splitAtMatch_isSome_of_isPrefixOf {hay needle : Str} (k : Nat)
    (h : needle.isPrefixOf (hay.drop k)) : (splitAtMatch hay needle).isSome := by
  induction hay generalizing k with
  | nil =>
    simp only [List.drop_nil] at h
    have : needle = [] := by
      cases needle with
      | nil => rfl
      | cons x xs => simp [List.isPrefixOf] at h
    simp [splitAtMatch, this, List.isEmpty]
  | cons c cs ih =>
    unfold splitAtMatch
    split
    · simp
    · rename_i hnp
      cases k with
      | zero => exact absurd h hnp
      | succ k' =>
        simp only [List.drop_succ_cons] at h
        have := ih k' h
        simpa [Option.isSome_map] using this

theorem splitAtMatch_isPrefixOf_of_isSome {hay needle : Str}
    (h : (splitAtMatch hay needle).isSome) : ∃ k, needle.isPrefixOf (hay.drop k) := by
  induction hay with
  | nil =>
    unfold splitAtMatch at h
    split at h
    · rename_i he
      refine ⟨0, ?_⟩
      simp_all [List.isEmpty_iff, List.isPrefixOf]
    · simp at h
  | cons c cs ih =>
    unfold splitAtMatch at h
    split at h
    · rename_i hp
      exact ⟨0, by rw [List.drop_zero]; exact hp⟩
    · cases hsm : splitAtMatch cs needle with
      | none => rw [hsm] at h; simp at h
      | some pr =>
        obtain ⟨k, hk⟩ := ih (by rw [hsm]; rfl)
        exact ⟨k + 1, by simpa using hk⟩

theorem isPrefixOf_drop_iff_infix {hay needle : Str} :
    (∃ k, needle.isPrefixOf (hay.drop k)) ↔ needle <:+: hay := by
  constructor
  · rintro ⟨k, hk⟩
    rw [List.isPrefixOf_iff_prefix] at hk
    obtain ⟨t, ht⟩ := hk
    exact ⟨hay.take k, t, by rw [List.append_assoc, ht]; exact List.take_append_drop k hay⟩
  · rintro ⟨s, t, hst⟩
    refine ⟨s.length, ?_⟩
    rw [List.isPrefixOf_iff_prefix, ← hst]
    simp [List.drop_left]

theorem splitAtMatch_isSome_iff (hay needle : Str) :
    (splitAtMatch hay needle).isSome ↔ needle <:+: hay := by
  constructor
  · intro h
    exact isPrefixOf_drop_iff_infix.mp (splitAtMatch_isPrefixOf_of_isSome h)
  · intro h
    obtain ⟨k, hk⟩ := isPrefixOf_drop_iff_infix.mpr h
    exact splitAtMatch_isSome_of_isPrefixOf k hk

/-- Rust `&s[..n]` at byte index `n`: the prefix of `s` of byte length `n`, or
`none` (a Rust panic) when `n` is out of range or not a character boundary. -/
def takeBytesOpt : Str → Nat → Option Str
  | _, 0 => some []
  | [], _ + 1 => none
  | c :: cs, n + 1 =>
    if c.utf8Size ≤ n + 1 then (takeBytesOpt cs (n + 1 - c.utf8Size)).map (c :: ·) else none

/-- Rust `&s[n..]` at byte index `n`: `s` with its first `n` bytes removed, or
`none` (a Rust panic) when `n` is out of range or not a character boundary. -/
def dropBytesOpt : Str → Nat → Option Str
  | s, 0 => some s
  | [], _ + 1 => none
  | c :: cs, n + 1 =>
    if c.utf8Size ≤ n + 1 then dropBytesOpt cs (n + 1 - c.utf8Size) else none

/-- Rust `&s[a..b]` at byte indices: `none` models the panics for `a > b`, an
index out of range, or an index that is not a character boundary. -/
def sliceBytes (s : Str) (a b : Nat) : Option Str :=
  (takeBytesOpt s b).bind (fun t => dropBytesOpt t a)

theorem takeBytesOpt_exact (a b : Str) : takeBytesOpt (a ++ b) (utf8Len a) = some a := by
  induction a with
  | nil => simp [takeBytesOpt, utf8Len]
  | cons c cs ih =>
    have hpos : 0 < c.utf8Size := Char.utf8Size_pos c
    obtain ⟨m, hm⟩ : ∃ m, utf8Len (c :: cs) = m + 1 :=
      ⟨utf8Len (c :: cs) - 1, by rw [utf8Len_cons]; omega⟩
    rw [utf8Len_cons] at hm
    rw [List.cons_append, utf8Len_cons, hm]
    simp only [takeBytesOpt]
    have hle : c.utf8Size ≤ m + 1 := by omega
    rw [if_pos hle]
    have h2 : m + 1 - c.utf8Size = utf8Len cs := by omega
    rw [h2, ih]
    rfl

theorem dropBytesOpt_exact (a b : Str) : dropBytesOpt (a ++ b) (utf8Len a) = some b := by
  induction a with
  | nil => simp [dropBytesOpt, utf8Len]
  | cons c cs ih =>
    have hpos : 0 < c.utf8Size := Char.utf8Size_pos c
    obtain ⟨m, hm⟩ : ∃ m, utf8Len (c :: cs) = m + 1 :=
      ⟨utf8Len (c :: cs) - 1, by rw [utf8Len_cons]; omega⟩
    rw [utf8Len_cons] at hm
    rw [List.cons_append, utf8Len_cons, hm]
    simp only [dropBytesOpt]
    have hle : c.utf8Size ≤ m + 1 := by omega
    rw [if_pos hle]
    have h2 : m + 1 - c.utf8Size = utf8Len cs := by omega
    rw [h2, ih]

theorem sliceBytes_exact (x a y : Str) :
    sliceBytes (x ++ a ++ y) (utf8Len x) (utf8Len x + utf8Len a) = some a := by
  unfold sliceBytes
  rw [← utf8Len_append, takeBytesOpt_exact]
  simpa using dropBytesOpt_exact x a

/-- The opening ANSI escape emitted by the `colored` crate's `.red()`. -/
def hlOpen : Str := ("\x1b[31m".data)

/-- The closing ANSI escape emitted by the `colored` crate's `.red()`. -/
def hlClose : Str := ("\x1b[0m".data)

/-- The `while let Some(pos) = haystack[i..].find(&needle)` loop of `highlight`
(src/main.rs lines 171-180).  `line` is the original line, `needle` the folded
pattern, `hayRest` the not-yet-scanned suffix of the folded line, `i` the byte
cursor into both the original line and the folded line, and `acc` the `result`
string built so far.  `none` models a Rust panic (a byte slice of `line` whose
index is out of range or not a boundary).  The loop is embedded with fuel; the
embedded caller `highlight` passes fuel exceeding the folded line's length,
which the lemmas below show is never exhausted. -/
def highlightLoop (line needle : Str) : Nat → Str → Nat → Str → Option Str
  | 0, _, _, _ => none
  | fuel + 1, hayRest, i, acc =>
    match splitAtMatch hayRest needle with
    | none => (dropBytesOpt line i).map (fun tail => acc ++ tail)
    | some pr =>
      (sliceBytes line i (i + pr.1)).bind (fun pre =>
        (sliceBytes line (i + pr.1) (i + pr.1 + utf8Len needle)).bind (fun mid =>
          highlightLoop line needle fuel pr.2 (i + pr.1 + utf8Len needle)
            (acc ++ pre ++ hlOpen ++ mid ++ hlClose)))

/-- `highlight` from src/main.rs lines 160-183: empty pattern short-circuits;
otherwise positions of the folded pattern are searched in the folded line and
the corresponding byte ranges of the original line are copied, the matched
spans wrapped in the ANSI markers. -/
def highlight (line pattern : Str) (case_insensitive : Bool) : Option Str :=
  if pattern.isEmpty then some line
  else
    let hay := if case_insensitive then toLowerRust line else line
    let needle := if case_insensitive then toLowerRust pattern else pattern
    highlightLoop line needle (hay.length + 1) hay 0 []

/-- `Config` from src/main.rs lines 8-19; all flags default to `false`,
`pattern` to the empty string and `targets` to the empty list, matching
`#[derive(Default)]`. -/
structure Config where
  case_insensitive : Bool := false
  show_line_numbers : Bool := false
  invert_match : Bool := false
  recursive : Bool := false
  show_filenames : Bool := false
  colored : Bool := false
  help : Bool := false
  pattern : Str := []
  targets : List Str := []
deriving DecidableEq

/-- The effective pattern computed once per file by `search_file`
(src/main.rs lines 115-119). -/
def filePattern (cfg : Config) : Str :=
  if cfg.case_insensitive then toLowerRust cfg.pattern else cfg.pattern

/-- The per-line emission test of `search_file` (src/main.rs lines 123-128):
`is_match`, inverted when `invert_match` is set. -/
def passes (cfg : Config) (line : Str) : Bool :=
  let m := contains line (filePattern cfg) cfg.case_insensitive
  if cfg.invert_match then !m else m

/-- The body of an emitted line (src/main.rs lines 140-144): highlighted when
`colored` is set, the line matches, and the match is not inverted; the raw
line otherwise.  `none` models a panic inside `highlight`. -/
def renderBody (cfg : Config) (line : Str) : Option Str :=
  if cfg.colored && contains line (filePattern cfg) cfg.case_insensitive && !cfg.invert_match then
    highlight line (filePattern cfg) cfg.case_insensitive
  else some line

/-- One emitted output line (src/main.rs lines 130-146): optional
`"<path>: "` prefix, then optional `"<idx+1>: "` prefix, then the body. -/
def renderLine (path : Str) (cfg : Config) (idx : Nat) (line : Str) : Option Str :=
  (renderBody cfg line).map (fun body =>
    (if cfg.show_filenames then path ++ (": ".data) else []) ++
      ((if cfg.show_line_numbers then (Nat.repr (idx + 1)).data ++ (": ".data) else []) ++ body))

/-- How processing of one file ends: all lines read (`ok`), a line failed to
read (`readErr`, the `line_res?` early return of src/main.rs line 122), or a
Rust panic in `highlight` aborted the process (`panicked`). -/
inductive Outcome where
  | ok : Outcome
  | readErr : Str → Outcome
  | panicked : Outcome
deriving DecidableEq

/-- The `for (idx, line_res) in reader.lines().enumerate()` loop of
`search_file` (src/main.rs lines 121-147) over the file's contents, each line
either read successfully (`Except.ok`) or failing with an error description
(`Except.error`): returns the lines printed to standard output (in order)
together with how the file ended. -/
def scanFrom (path : Str) (cfg : Config) : Nat → List (Except Str Str) → List Str × Outcome
  | _, [] => ([], Outcome.ok)
  | _, Except.error e :: _ => ([], Outcome.readErr e)
  | idx, Except.ok line :: rest =>
    if passes cfg line then
      match renderLine path cfg idx line with
      | none => ([], Outcome.panicked)
      | some out =>
        let r := scanFrom path cfg (idx + 1) rest
        (out :: r.1, r.2)
    else scanFrom path cfg (idx + 1) rest

/-- `search_file` on a file whose every line reads successfully. -/
def searchLines (path : Str) (cfg : Config) (lines : List Str) : List Str × Outcome :=
  scanFrom path cfg 0 (lines.map Except.ok)

/-- Indices (0-based read order) of the lines a configuration emits. -/
def emittedIdx (cfg : Config) (lines : List Str) : List Nat :=
  (lines.enum.filter (fun p => passes cfg p.2)).map (fun p => p.1)

/-- The same configuration with `invert_match` flipped. -/
def invertFlip (cfg : Config) : Config := { cfg with invert_match := !cfg.invert_match }

/-- The per-file error line printed by `main` (src/main.rs line 71). -/
def failMsg (path e : Str) : Str :=
  ("Failed to read ".data) ++ path ++ (": ".data) ++ e

/-- An observable event of the run: a standard-output line or an
error-stream line. -/
inductive Ev where
  | out : Str → Ev
  | err : Str → Ev
deriving DecidableEq

/-- The events produced by processing one file in `main`'s loop
(src/main.rs lines 69-73): the file's standard-output lines, followed by the
`Failed to read` error line when the read failed; the boolean records whether
a panic aborted the process. -/
def fileTrace (cfg : Config) (f : Str × List (Except Str Str)) : List Ev × Bool :=
  match scanFrom f.1 cfg 0 f.2 with
  | (outs, Outcome.ok) => (outs.map Ev.out, false)
  | (outs, Outcome.readErr e) => (outs.map Ev.out ++ [Ev.err (failMsg f.1 e)], false)
  | (outs, Outcome.panicked) => (outs.map Ev.out, true)

/-- The events of the whole run over the expanded file list (src/main.rs
lines 69-73); a panic stops the run, a read failure does not. -/
def runTrace (cfg : Config) : List (Str × List (Except Str Str)) → List Ev × Bool
  | [] => ([], false)
  | f :: rest =>
    if (fileTrace cfg f).2 then ((fileTrace cfg f).1, true)
    else ((fileTrace cfg f).1 ++ (runTrace cfg rest).1, (runTrace cfg rest).2)

/-- The error-stream lines of a trace. -/
def errEvents (tr : List Ev) : List Str :=
  tr.filterMap (fun e => match e with | Ev.err s => some s | Ev.out _ => none)

/-- One character of a flag cluster (the `match ch` of src/main.rs lines
90-100), rendered as an if-chain over the same literals.  The source match
has no wildcard arm, which Rust rejects as non-exhaustive (E0004); the final
branch is modelled from the spec: `Modelled from the spec:` §4.1 says
unrecognized characters are silently ignored, so every other character
leaves the configuration unchanged. -/
def applyFlag (cfg : Config) (ch : Char) : Config :=
  if ch = 'i' then { cfg with case_insensitive := true }
  else if ch = 'n' then { cfg with show_line_numbers := true }
  else if ch = 'v' then { cfg with invert_match := true }
  else if ch = 'r' then { cfg with recursive := true }
  else if ch = 'f' then { cfg with show_filenames := true }
  else if ch = 'c' then { cfg with colored := true }
  else if ch = 'h' then { cfg with help := true }
  else if ch = '-' then cfg
  else cfg

/-- Token equal to `-h` or `--help` (src/main.rs lines 81-84). -/
def tokenIsHelp (a : Str) : Bool := a == ("-h".data) || a == ("--help".data)

/-- Token treated as a cluster of short flags: starts with `-` and has byte
length at least 2 (src/main.rs line 85; `len()` is the byte length). -/
def tokenIsFlags (a : Str) : Bool := a.head? == some '-' && decide (2 ≤ utf8Len a)

/-- The token loop of `parse_args` (src/main.rs lines 80-103), threading the
configuration being built and the positional operands collected so far. -/
def parseLoop : Config → List Str → List Str → Config × List Str
  | cfg, ops, [] => (cfg, ops)
  | cfg, ops, a :: rest =>
    if tokenIsHelp a then parseLoop { cfg with help := true } ops rest
    else if tokenIsFlags a then parseLoop ((a.drop 1).foldl applyFlag cfg) ops rest
    else parseLoop cfg (ops ++ [a]) rest

/-- The operand step of `parse_args` (src/main.rs lines 105-108): first
operand becomes the pattern, the rest the targets. -/
def finishConfig : Config × List Str → Config
  | (cfg, []) => cfg
  | (cfg, p :: ts) => { cfg with pattern := p, targets := ts }

/-- `parse_args` (src/main.rs lines 76-109); it returns `Ok` on every input. -/
def parse_args (args : List Str) : Except Unit Config :=
  Except.ok (finishConfig (parseLoop {} [] args))

/-- The flag characters a token contributes: a help token acts exactly like
the cluster character `h`; a cluster token contributes its characters after
the dash; an operand contributes none. -/
def tokenFlagChars (a : Str) : List Char :=
  if tokenIsHelp a then ['h'] else if tokenIsFlags a then a.drop 1 else []

/-- All flag characters of an argument list, in order. -/
def flagCharsOf (args : List Str) : List Char := args.flatMap tokenFlagChars

/-- The positional operands of an argument list, in encounter order. -/
def operandsOf (args : List Str) : List Str :=
  args.filter (fun a => !tokenIsHelp a && !tokenIsFlags a)

/-- A filesystem subtree: a regular file or a directory with entries, each
node carrying the path `WalkDir` would report for it. -/
inductive FSTree where
  | file : Str → FSTree
  | dir : Str → List FSTree → FSTree

/-- The regular-file paths yielded by `WalkDir` over a worklist of subtrees,
in depth-first order, keeping only entries whose file type `is_file`
(src/main.rs lines 54-60). -/
def walkList : List FSTree → List Str
  | [] => []
  | FSTree.file p :: rest => p :: walkList rest
  | FSTree.dir _ ds :: rest => walkList ds ++ walkList rest
termination_by l => sizeOf l
decreasing_by all_goals (simp_wf; try omega)

/-- All regular files under one subtree, in traversal order. -/
def walkFiles (t : FSTree) : List Str := walkList [t]

/-- Every path appearing in a worklist of subtrees (files and directories). -/
def pathsList : List FSTree → List Str
  | [] => []
  | FSTree.file p :: rest => p :: pathsList rest
  | FSTree.dir p ds :: rest => p :: (pathsList ds ++ pathsList rest)
termination_by l => sizeOf l
decreasing_by all_goals (simp_wf; try omega)

/-- `x` is the path of a regular file transitively reachable in the subtree. -/
inductive ReachFile : FSTree → Str → Prop where
  | file (p : Str) : ReachFile (FSTree.file p) p
  | dir (p : Str) (cs : List FSTree) (c : FSTree) (x : Str) :
      c ∈ cs → ReachFile c x → ReachFile (FSTree.dir p cs) x

/-- The directory subtree mounted at a target path, when the target
currently exists as a directory (`p.is_dir()`, src/main.rs line 53);
`none` when the target is a plain file or missing. -/
def dirTreeAt (fs : Str → Option FSTree) (t : Str) : Option FSTree :=
  match fs t with
  | some (FSTree.dir p cs) => some (FSTree.dir p cs)
  | _ => none

/-- The file-gathering loop of `main` (src/main.rs lines 49-67) over the
remaining targets. -/
def gatherLoop (cfg : Config) (fs : Str → Option FSTree) : List Str → List Str
  | [] => []
  | t :: ts =>
    (if cfg.recursive then
      match dirTreeAt fs t with
      | some tree => walkFiles tree
      | none => [t]
    else [t]) ++ gatherLoop cfg fs ts

/-- The expanded file list `files` built by `main` (src/main.rs lines 49-67). -/
def gatherFiles (cfg : Config) (fs : Str → Option FSTree) : List Str :=
  gatherLoop cfg fs cfg.targets

theorem contains_empty_pattern (line : Str) (ci : Bool) : contains line [] ci = true := by
  unfold contains
  cases ci <;> simp [splitAtMatch_isSome_iff]

/-- C1: the match predicate is substring containment of the pattern in the
line when case-sensitive, and containment of the lowercased pattern in the
lowercased line when case-insensitive; the empty pattern matches every line
in both modes. -/
theorem c1_match_predicate (line pat : Str) :
    (isMatch line pat false = true ↔ pat <:+: line) ∧
    (isMatch line pat true = true ↔ toLowerRust pat <:+: toLowerRust line) ∧
    isMatch line [] false = true ∧ isMatch line [] true = true := by
  refine ⟨?_, ?_, ?_, ?_⟩
  · unfold isMatch contains
    simpa using splitAtMatch_isSome_iff line pat
  · unfold isMatch contains
    simpa using splitAtMatch_isSome_iff (toLowerRust line) (toLowerRust pat)
  · exact contains_empty_pattern line false
  · unfold isMatch
    rw [if_pos rfl, toLowerRust_nil]
    exact contains_empty_pattern line true

theorem filePattern_invertFlip (cfg : Config) : filePattern (invertFlip cfg) = filePattern cfg := rfl

theorem passes_invertFlip (cfg : Config) (l : Str) :
    passes (invertFlip cfg) l = !passes cfg l := by
  unfold passes invertFlip
  cases cfg.invert_match <;> simp [filePattern]

theorem invertFlip_invertFlip (cfg : Config) : invertFlip (invertFlip cfg) = cfg := by
  cases cfg
  simp [invertFlip]

theorem mem_emittedIdx_iff {cfg : Config} {lines : List Str} {i : Nat} :
    i ∈ emittedIdx cfg lines ↔ ∃ l, lines[i]? = some l ∧ passes cfg l = true := by
  unfold emittedIdx
  simp only [List.mem_map, List.mem_filter]
  constructor
  · rintro ⟨⟨j, l⟩, ⟨hmem, hp⟩, rfl⟩
    exact ⟨l, by simpa using List.mk_mem_enum_iff_getElem?.mp hmem, hp⟩
  · rintro ⟨l, hget, hp⟩
    exact ⟨(i, l), ⟨List.mk_mem_enum_iff_getElem?.mpr (by simpa using hget), hp⟩, rfl⟩

/-- C2: a line passes the emission test iff `isMatch XOR invertMatch`; for a
fixed file and pattern the emitted line positions under the flipped
`invert_match` are exactly the complement of the positions emitted without it,
and flipping `invert_match` twice emits the original positions again. -/
theorem c2_invert_complement (cfg : Config) (lines : List Str) :
    (∀ line, passes cfg line =
      Bool.xor (contains line (filePattern cfg) cfg.case_insensitive) cfg.invert_match) ∧
    (∀ i, i ∈ emittedIdx (invertFlip cfg) lines ↔
      (i < lines.length ∧ i ∉ emittedIdx cfg lines)) ∧
    emittedIdx (invertFlip (invertFlip cfg)) lines = emittedIdx cfg lines := by
  refine ⟨?_, ?_, ?_⟩
  · intro line
    unfold passes
    cases hc : contains line (filePattern cfg) cfg.case_insensitive <;>
      cases cfg.invert_match <;> simp
  · intro i
    constructor
    · rintro h
      obtain ⟨l, hget, hp⟩ := mem_emittedIdx_iff.mp h
      have hlen : i < lines.length := by
        have := List.getElem?_eq_some.mp hget
        exact this.1
      refine ⟨hlen, fun hmem => ?_⟩
      obtain ⟨l', hget', hp'⟩ := mem_emittedIdx_iff.mp hmem
      rw [hget] at hget'
      have hl : l = l' := by injection hget'
      rw [passes_invertFlip] at hp
      rw [← hl] at hp'
      rw [hp'] at hp
      simp at hp
    · rintro ⟨hlen, hnot⟩
      refine mem_emittedIdx_iff.mpr ⟨lines[i], List.getElem?_eq_getElem hlen, ?_⟩
      rw [passes_invertFlip]
      cases hpc : passes cfg lines[i] with
      | true =>
        exact absurd (mem_emittedIdx_iff.mpr ⟨lines[i], List.getElem?_eq_getElem hlen, hpc⟩) hnot
      | false => rfl
  · rw [invertFlip_invertFlip]

/-- C3: on the spec-modelled interpreter (the source's flag-character match has
no wildcard arm and is rejected by the Rust compiler; §4.1 of the spec supplies
the missing arm: unrecognized characters are silently ignored), parsing always
succeeds, and any character outside `i n v r f c h -` leaves the configuration
untouched. -/
theorem c3_parse_total_and_permissive :
    (∀ args : List Str, ∃ cfg, parse_args args = Except.ok cfg) ∧
    (∀ (cfg : Config) (c : Char),
      applyFlag cfg c = cfg ∨ c ∈ (['i', 'n', 'v', 'r', 'f', 'c', 'h', '-'] : List Char)) := by
  constructor
  · intro args
    exact ⟨_, rfl⟩
  · intro cfg c
    unfold applyFlag
    split_ifs with h1 h2 h3 h4 h5 h6 h7 h8
    · exact Or.inr (by simp [h1])
    · exact Or.inr (by simp [h2])
    · exact Or.inr (by simp [h3])
    · exact Or.inr (by simp [h4])
    · exact Or.inr (by simp [h5])
    · exact Or.inr (by simp [h6])
    · exact Or.inr (by simp [h7])
    · exact Or.inr (by simp [h8])
    · exact Or.inl rfl

theorem scanFrom_map_ok (path : Str) (cfg : Config) :
    ∀ (lines : List Str) (n : Nat), (∀ l ∈ lines, (renderBody cfg l).isSome = true) →
      scanFrom path cfg n (lines.map Except.ok) =
        (((List.enumFrom n lines).filter (fun p => passes cfg p.2)).map (fun p =>
          (if cfg.show_filenames then path ++ (": ".data) else []) ++
            ((if cfg.show_line_numbers then (Nat.repr (p.1 + 1)).data ++ (": ".data) else []) ++
              ((renderBody cfg p.2).getD p.2))), Outcome.ok) := by
  intro lines
  induction lines with
  | nil => intro n h; simp [scanFrom, List.enumFrom]
  | cons l ls ih =>
    intro n h
    have hl := h l (List.mem_cons_self l ls)
    obtain ⟨b, hb⟩ := Option.isSome_iff_exists.mp hl
    have hrest : ∀ x ∈ ls, (renderBody cfg x).isSome = true :=
      fun x hx => h x (List.mem_cons_of_mem l hx)
    have hr : renderLine path cfg n l =
        some ((if cfg.show_filenames then path ++ (": ".data) else []) ++
          ((if cfg.show_line_numbers then (Nat.repr (n + 1)).data ++ (": ".data) else []) ++ b)) := by
      rw [renderLine, hb]
      rfl
    by_cases hp : passes cfg l = true
    · simp only [List.map_cons, scanFrom, hp, if_true, hr]
      rw [ih (n + 1) hrest]
      simp only [List.enumFrom_cons]
      rw [List.filter_cons_of_pos (by simpa using hp)]
      simp only [List.map_cons, hb]
      rfl
    · have hp' : passes cfg l = false := by simpa using hp
      simp only [List.map_cons, scanFrom, hp', Bool.false_eq_true, if_false]
      rw [ih (n + 1) hrest]
      simp only [List.enumFrom_cons]
      rw [List.filter_cons_of_neg (by simpa using hp')]

/-- C6: the emitted lines of a file whose every body renders without a panic
are exactly, in read order, the passing lines, each assembled as the optional
`"<path>: "` prefix, then the optional `"<n>: "` prefix, then the body, where
`n` is one plus the 0-based position of the line among all lines read
(matching lines and non-matching lines alike); the numbering expression does
not consult `invert_match`, only the filter does. -/
theorem c6_output_assembly (path : Str) (cfg : Config) (lines : List Str)
    (h : ∀ l ∈ lines, (renderBody cfg l).isSome = true) :
    searchLines path cfg lines =
      ((lines.enum.filter (fun p => passes cfg p.2)).map (fun p =>
        (if cfg.show_filenames then path ++ (": ".data) else []) ++
          ((if cfg.show_line_numbers then (Nat.repr (p.1 + 1)).data ++ (": ".data) else []) ++
            ((renderBody cfg p.2).getD p.2))), Outcome.ok) := by
  unfold searchLines
  rw [scanFrom_map_ok path cfg lines 0 h]
  rfl

theorem errEvents_append (a b : List Ev) : errEvents (a ++ b) = errEvents a ++ errEvents b := by
  simp [errEvents]

theorem errEvents_outs (xs : List Str) : errEvents (xs.map Ev.out) = [] := by
  induction xs with
  | nil => rfl
  | cons x xs ih =>
    simp only [List.map_cons, errEvents, List.filterMap_cons] at ih ⊢
    exact ih

theorem fileTrace_no_panic {cfg : Config} {f : Str × List (Except Str Str)}
    (h : (scanFrom f.1 cfg 0 f.2).2 ≠ Outcome.panicked) :
    fileTrace cfg f = ((scanFrom f.1 cfg 0 f.2).1.map Ev.out ++
      (match (scanFrom f.1 cfg 0 f.2).2 with
       | Outcome.readErr e => [Ev.err (failMsg f.1 e)]
       | _ => []), false) := by
  unfold fileTrace
  rcases hs : scanFrom f.1 cfg 0 f.2 with ⟨outs, oc⟩
  rw [hs] at h
  cases oc with
  | ok => simp
  | readErr e => simp
  | panicked => exact absurd rfl h

/-- C7: when no file's processing panics, a run over the expanded file list
never aborts: every file contributes its trace in order (so scanning proceeds
past failing files), and the error stream carries exactly one
`Failed to read <path>: <reason>` line per file whose open or read failed,
in file order. -/
theorem c7_per_file_isolation (cfg : Config) (files : List (Str × List (Except Str Str)))
    (h : ∀ f ∈ files, (scanFrom f.1 cfg 0 f.2).2 ≠ Outcome.panicked) :
    (runTrace cfg files).2 = false ∧
    (runTrace cfg files).1 = files.flatMap (fun f => (fileTrace cfg f).1) ∧
    errEvents (runTrace cfg files).1 = files.filterMap (fun f =>
      match (scanFrom f.1 cfg 0 f.2).2 with
      | Outcome.readErr e => some (failMsg f.1 e)
      | _ => none) := by
  induction files with
  | nil => exact ⟨rfl, rfl, rfl⟩
  | cons f rest ih =>
    have hf := h f (List.mem_cons_self f rest)
    have hrest : ∀ g ∈ rest, (scanFrom g.1 cfg 0 g.2).2 ≠ Outcome.panicked :=
      fun g hg => h g (List.mem_cons_of_mem f hg)
    obtain ⟨h1, h2, h3⟩ := ih hrest
    have hft := fileTrace_no_panic hf
    have hrw : runTrace cfg (f :: rest) =
        ((fileTrace cfg f).1 ++ (runTrace cfg rest).1, (runTrace cfg rest).2) := by
      simp only [runTrace, hft]
      simp
    refine ⟨?_, ?_, ?_⟩
    · rw [hrw]
      exact h1
    · rw [hrw, List.flatMap_cons, h2]
    · rw [hrw]
      simp only [List.filterMap_cons]
      have he : errEvents (fileTrace cfg f).1 =
          match (scanFrom f.1 cfg 0 f.2).2 with
          | Outcome.readErr e => [failMsg f.1 e]
          | _ => [] := by
        rw [hft]
        simp only [errEvents_append, errEvents_outs, List.nil_append]
        rcases (scanFrom f.1 cfg 0 f.2).2 with _ | e | _ <;> simp [errEvents]
      rw [errEvents_append, he, h3]
      rcases hs : (scanFrom f.1 cfg 0 f.2).2 with _ | e | _
      · simp
      · simp
      · exact absurd hs hf

theorem scanFrom_ok_then_err (path : Str) (cfg : Config) (e : Str) (junk : List (Except Str Str)) :
    ∀ (good : List Str) (n : Nat),
      (scanFrom path cfg n (good.map Except.ok)).2 = Outcome.ok →
      scanFrom path cfg n (good.map Except.ok ++ Except.error e :: junk) =
        ((scanFrom path cfg n (good.map Except.ok)).1, Outcome.readErr e) := by
  intro good
  induction good with
  | nil => intro n _; simp [scanFrom]
  | cons l ls ih =>
    intro n h
    by_cases hp : passes cfg l = true
    · simp only [List.map_cons, List.cons_append, scanFrom, hp, if_true] at h ⊢
      cases hr : renderLine path cfg n l with
      | none => rw [hr] at h; simp at h
      | some out =>
        rw [hr] at h
        have h2 : (scanFrom path cfg (n + 1) (List.map Except.ok ls)).2 = Outcome.ok := by
          simpa using h
        simp only [List.append_eq]
        rw [ih (n + 1) h2]
    · have hp' : passes cfg l = false := by simpa using hp
      simp only [List.map_cons, List.cons_append, scanFrom, hp', Bool.false_eq_true,
        if_false] at h ⊢
      exact ih (n + 1) h

/-- C10: when a read error strikes after the first `k` lines were read
successfully, the lines emitted among those `k` stand on standard output
(they are not retracted), the `Failed to read` message follows them on the
trace, nothing after the failed line is processed, and the remaining files
are still scanned; so a file's output is not atomic with its read error. -/
theorem c10_partial_output (cfg : Config) (path : Str) (good : List Str) (e : Str)
    (junk : List (Except Str Str)) (rest : List (Str × List (Except Str Str)))
    (h : (searchLines path cfg good).2 = Outcome.ok) :
    runTrace cfg ((path, good.map Except.ok ++ Except.error e :: junk) :: rest) =
      ((searchLines path cfg good).1.map Ev.out ++
        (Ev.err (failMsg path e) :: (runTrace cfg rest).1), (runTrace cfg rest).2) := by
  have hs := scanFrom_ok_then_err path cfg e junk good 0 h
  have hft : fileTrace cfg (path, good.map Except.ok ++ Except.error e :: junk) =
      ((searchLines path cfg good).1.map Ev.out ++ [Ev.err (failMsg path e)], false) := by
    unfold fileTrace
    rw [hs]
    rfl
  simp only [runTrace, hft]
  simp

theorem applyFlag_fields (cfg : Config) (c : Char) :
    applyFlag cfg c = { cfg with
      case_insensitive := cfg.case_insensitive || (c == 'i'),
      show_line_numbers := cfg.show_line_numbers || (c == 'n'),
      invert_match := cfg.invert_match || (c == 'v'),
      recursive := cfg.recursive || (c == 'r'),
      show_filenames := cfg.show_filenames || (c == 'f'),
      colored := cfg.colored || (c == 'c'),
      help := cfg.help || (c == 'h') } := by
  unfold applyFlag
  split_ifs with h1 h2 h3 h4 h5 h6 h7 h8
  · simp_all
  · simp_all
  · simp_all
  · simp_all
  · simp_all
  · simp_all
  · simp_all
  · simp_all
  · have e1 : (c == 'i') = false := beq_eq_false_iff_ne.mpr h1
    have e2 : (c == 'n') = false := beq_eq_false_iff_ne.mpr h2
    have e3 : (c == 'v') = false := beq_eq_false_iff_ne.mpr h3
    have e4 : (c == 'r') = false := beq_eq_false_iff_ne.mpr h4
    have e5 : (c == 'f') = false := beq_eq_false_iff_ne.mpr h5
    have e6 : (c == 'c') = false := beq_eq_false_iff_ne.mpr h6
    have e7 : (c == 'h') = false := beq_eq_false_iff_ne.mpr h7
    simp [e1, e2, e3, e4, e5, e6, e7]

theorem foldl_applyFlag_proj (proj : Config → Bool) (ch : Char)
    (hstep : ∀ cfg c, proj (applyFlag cfg c) = (proj cfg || (c == ch))) :
    ∀ (l : List Char) (cfg : Config),
      proj (l.foldl applyFlag cfg) = (proj cfg || decide (ch ∈ l)) := by
  intro l
  induction l with
  | nil => intro cfg; simp
  | cons a l ih =>
    intro cfg
    rw [List.foldl_cons, ih, hstep]
    by_cases hac : ch = a
    · subst hac
      simp
    · have hac' : ¬a = ch := fun h => hac h.symm
      have e : (a == ch) = false := beq_eq_false_iff_ne.mpr hac'
      simp [hac, e, List.mem_cons, Bool.or_assoc]

theorem foldl_applyFlag_const {α : Type} (proj : Config → α)
    (hstep : ∀ cfg c, proj (applyFlag cfg c) = proj cfg) :
    ∀ (l : List Char) (cfg : Config), proj (l.foldl applyFlag cfg) = proj cfg := by
  intro l
  induction l with
  | nil => intro cfg; rfl
  | cons a l ih =>
    intro cfg
    rw [List.foldl_cons, ih, hstep]

theorem parseLoop_eq : ∀ (args : List Str) (cfg : Config) (ops : List Str),
    parseLoop cfg ops args =
      ((flagCharsOf args).foldl applyFlag cfg, ops ++ operandsOf args) := by
  intro args
  induction args with
  | nil => intro cfg ops; simp [parseLoop, flagCharsOf, operandsOf]
  | cons a rest ih =>
    intro cfg ops
    by_cases hh : tokenIsHelp a = true
    · have ha : { cfg with help := true } = applyFlag cfg 'h' := rfl
      simp only [parseLoop, hh, if_true]
      rw [ih, ha]
      simp only [flagCharsOf, operandsOf, List.flatMap_cons, tokenFlagChars, hh, if_true]
      rw [List.filter_cons_of_neg (by simp [hh])]
      simp [flagCharsOf, operandsOf]
    · by_cases hf : tokenIsFlags a = true
      · simp only [parseLoop, hh, Bool.false_eq_true, if_false, hf, if_true]
        rw [ih]
        simp only [flagCharsOf, operandsOf, List.flatMap_cons, tokenFlagChars, hh,
          Bool.false_eq_true, if_false, hf, if_true]
        rw [List.filter_cons_of_neg (by simp [hh, hf]), List.foldl_append]
      · simp only [parseLoop, hh, Bool.false_eq_true, if_false, hf]
        rw [ih]
        simp only [flagCharsOf, operandsOf, List.flatMap_cons, tokenFlagChars, hh,
          Bool.false_eq_true, if_false, hf]
        rw [List.filter_cons_of_pos (by simp [hh, hf])]
        simp [flagCharsOf, operandsOf]

theorem config_ext {a b : Config}
    (h1 : a.case_insensitive = b.case_insensitive)
    (h2 : a.show_line_numbers = b.show_line_numbers)
    (h3 : a.invert_match = b.invert_match) (h4 : a.recursive = b.recursive)
    (h5 : a.show_filenames = b.show_filenames) (h6 : a.colored = b.colored)
    (h7 : a.help = b.help) (h8 : a.pattern = b.pattern) (h9 : a.targets = b.targets) :
    a = b := by
  cases a
  cases b
  simp_all

/-- C9: the configuration produced by `parse_args` depends only on which flag
characters occur somewhere in the argument list and on the subsequence of
positional operands in encounter order; in particular moving a flag token
anywhere relative to the operands (e.g. `-n` after the pattern and targets)
yields the same configuration. -/
theorem c9_flag_position_independent (args1 args2 : List Str)
    (hflags : ∀ c, c ∈ flagCharsOf args1 ↔ c ∈ flagCharsOf args2)
    (hops : operandsOf args1 = operandsOf args2) :
    parse_args args1 = parse_args args2 := by
  unfold parse_args
  rw [parseLoop_eq args1, parseLoop_eq args2, hops]
  have hfold : (flagCharsOf args1).foldl applyFlag {} =
      (flagCharsOf args2).foldl applyFlag {} := by
    apply config_ext
    · rw [foldl_applyFlag_proj (fun k => k.case_insensitive) 'i'
          (fun cfg c => by rw [applyFlag_fields]),
        foldl_applyFlag_proj (fun k => k.case_insensitive) 'i'
          (fun cfg c => by rw [applyFlag_fields])]
      simp [decide_eq_decide.mpr (hflags 'i')]
    · rw [foldl_applyFlag_proj (fun k => k.show_line_numbers) 'n'
          (fun cfg c => by rw [applyFlag_fields]),
        foldl_applyFlag_proj (fun k => k.show_line_numbers) 'n'
          (fun cfg c => by rw [applyFlag_fields])]
      simp [decide_eq_decide.mpr (hflags 'n')]
    · rw [foldl_applyFlag_proj (fun k => k.invert_match) 'v'
          (fun cfg c => by rw [applyFlag_fields]),
        foldl_applyFlag_proj (fun k => k.invert_match) 'v'
          (fun cfg c => by rw [applyFlag_fields])]
      simp [decide_eq_decide.mpr (hflags 'v')]
    · rw [foldl_applyFlag_proj (fun k => k.recursive) 'r'
          (fun cfg c => by rw [applyFlag_fields]),
        foldl_applyFlag_proj (fun k => k.recursive) 'r'
          (fun cfg c => by rw [applyFlag_fields])]
      simp [decide_eq_decide.mpr (hflags 'r')]
    · rw [foldl_applyFlag_proj (fun k => k.show_filenames) 'f'
          (fun cfg c => by rw [applyFlag_fields]),
        foldl_applyFlag_proj (fun k => k.show_filenames) 'f'
          (fun cfg c => by rw [applyFlag_fields])]
      simp [decide_eq_decide.mpr (hflags 'f')]
    · rw [foldl_applyFlag_proj (fun k => k.colored) 'c'
          (fun cfg c => by rw [applyFlag_fields]),
        foldl_applyFlag_proj (fun k => k.colored) 'c'
          (fun cfg c => by rw [applyFlag_fields])]
      simp [decide_eq_decide.mpr (hflags 'c')]
    · rw [foldl_applyFlag_proj (fun k => k.help) 'h'
          (fun cfg c => by rw [applyFlag_fields]),
        foldl_applyFlag_proj (fun k => k.help) 'h'
          (fun cfg c => by rw [applyFlag_fields])]
      simp [decide_eq_decide.mpr (hflags 'h')]
    · rw [foldl_applyFlag_const (fun k => k.pattern) (fun cfg c => by rw [applyFlag_fields]),
        foldl_applyFlag_const (fun k => k.pattern) (fun cfg c => by rw [applyFlag_fields])]
    · rw [foldl_applyFlag_const (fun k => k.targets) (fun cfg c => by rw [applyFlag_fields]),
        foldl_applyFlag_const (fun k => k.targets) (fun cfg c => by rw [applyFlag_fields])]
  rw [hfold]

theorem mem_walkList : ∀ (l : List FSTree) (x : Str),
    x ∈ walkList l ↔ ∃ t ∈ l, ReachFile t x := by
  intro l
  induction l using walkList.induct with
  | case1 => intro x; simp [walkList]
  | case2 p rest ih =>
    intro x
    rw [walkList]
    simp only [List.mem_cons, ih x]
    constructor
    · rintro (rfl | ⟨t, ht, hr⟩)
      · exact ⟨FSTree.file x, Or.inl rfl, ReachFile.file x⟩
      · exact ⟨t, Or.inr ht, hr⟩
    · rintro ⟨t, rfl | ht, hr⟩
      · cases hr
        exact Or.inl rfl
      · exact Or.inr ⟨t, ht, hr⟩
  | case3 p ds rest ih1 ih2 =>
    intro x
    rw [walkList]
    simp only [List.mem_append, ih1 x, ih2 x, List.mem_cons]
    constructor
    · rintro (⟨c, hc, hr⟩ | ⟨t, ht, hr⟩)
      · exact ⟨FSTree.dir p ds, Or.inl rfl, ReachFile.dir p ds c x hc hr⟩
      · exact ⟨t, Or.inr ht, hr⟩
    · rintro ⟨t, rfl | ht, hr⟩
      · cases hr with
        | dir _ _ c _ hc hcr => exact Or.inl ⟨c, hc, hcr⟩
      · exact Or.inr ⟨t, ht, hr⟩

theorem walkList_sublist_pathsList : ∀ l : List FSTree, List.Sublist (walkList l) (pathsList l) := by
  intro l
  induction l using walkList.induct with
  | case1 => simp [walkList, pathsList]
  | case2 p rest ih =>
    rw [walkList, pathsList]
    exact ih.cons₂ p
  | case3 p ds rest ih1 ih2 =>
    rw [walkList, pathsList]
    exact (ih1.append ih2).cons p

/-- C8: with `recursive` unset every target passes through verbatim in order;
with `recursive` set a directory target contributes exactly the regular files
transitively reachable under it and any other target passes through
unchanged; and when the walked subtree repeats no path, every reachable file
is contributed exactly once. -/
theorem c8_target_expansion (cfg : Config) (fs : Str → Option FSTree) :
    (cfg.recursive = false → gatherFiles cfg fs = cfg.targets) ∧
    (cfg.recursive = true → ∀ x, x ∈ gatherFiles cfg fs ↔
      ∃ t ∈ cfg.targets,
        (∃ tr, dirTreeAt fs t = some tr ∧ ReachFile tr x) ∨
        (dirTreeAt fs t = none ∧ x = t)) ∧
    (∀ t tr, dirTreeAt fs t = some tr → (pathsList [tr]).Nodup → (walkFiles tr).Nodup) := by
  refine ⟨?_, ?_, ?_⟩
  · intro hr
    unfold gatherFiles
    induction cfg.targets with
    | nil => rfl
    | cons t ts ih => simp only [gatherLoop, hr, Bool.false_eq_true, if_false, ih]; rfl
  · intro hr x
    unfold gatherFiles
    induction cfg.targets with
    | nil => simp [gatherLoop]
    | cons t ts ih =>
      simp only [gatherLoop, hr, if_true, List.mem_append, ih, List.mem_cons]
      constructor
      · rintro (hx | ⟨t', ht', hcase⟩)
        · rcases hd : dirTreeAt fs t with _ | tr
          · rw [hd] at hx
            simp at hx
            exact ⟨t, Or.inl rfl, Or.inr ⟨hd, hx⟩⟩
          · rw [hd] at hx
            have hx' : x ∈ walkList [tr] := by simpa [walkFiles] using hx
            rw [mem_walkList] at hx'
            obtain ⟨u, hu, hru⟩ := hx'
            simp at hu
            exact ⟨t, Or.inl rfl, Or.inl ⟨tr, hd, hu ▸ hru⟩⟩
        · exact ⟨t', Or.inr ht', hcase⟩
      · rintro ⟨t', rfl | ht', hcase⟩
        · rcases hcase with ⟨tr, htr, hru⟩ | ⟨htr, rfl⟩
          · refine Or.inl ?_
            rw [htr]
            have hmem : x ∈ walkList [tr] := (mem_walkList [tr] x).mpr ⟨tr, by simp, hru⟩
            simpa [walkFiles] using hmem
          · refine Or.inl ?_
            rw [htr]
            simp
        · exact Or.inr ⟨t', ht', hcase⟩
  · intro t tr _ hnd
    exact (walkList_sublist_pathsList [tr]).nodup hnd

/-- Modelled from the spec: the §4.3 highlighting algorithm in its
intended character-level reading — scan the line left to right; at each
position, if the case-folded text starting there begins with the case-folded
pattern, copy that span from the original line wrapped in the markers and
continue past it (non-overlapping); otherwise copy one character verbatim.
Fuel bounds the scan; callers pass more fuel than the line has characters. -/
def specScan (needle : Str) (fold1 : Char → Char) : Nat → Str → Str
  | 0, s => s
  | _ + 1, [] => []
  | fuel + 1, c :: cs =>
    if needle.isPrefixOf ((c :: cs).map fold1) then
      hlOpen ++ ((c :: cs).take needle.length ++
        (hlClose ++ specScan needle fold1 fuel ((c :: cs).drop needle.length)))
    else c :: specScan needle fold1 fuel cs

/-- Modelled from the spec: the full §4.3 highlighting contract — empty
pattern returns the line unchanged, otherwise every non-overlapping
left-to-right occurrence of the case-folded pattern, located on the
case-folded line, is wrapped in the markers while all other characters of the
original line are copied verbatim. -/
def specHL (line pattern : Str) (ci : Bool) : Str :=
  if pattern.isEmpty then line
  else specScan (pattern.map (fun c => if ci then Char.toLower c else c))
    (fun c => if ci then Char.toLower c else c) (line.length + 1) line

theorem splitAtMatch_none (needle : Str) :
    ∀ hay, splitAtMatch hay needle = none →
      ∀ k, ¬ needle.isPrefixOf (hay.drop k) = true := by
  intro hay
  induction hay with
  | nil =>
    intro h k
    unfold splitAtMatch at h
    split at h
    · exact absurd h (by simp)
    · rename_i he
      rw [List.drop_nil]
      intro hp
      have hne : needle = [] := by
        cases needle with
        | nil => rfl
        | cons a as => simp [List.isPrefixOf] at hp
      rw [hne] at he
      simp [List.isEmpty] at he
  | cons c cs ih =>
    intro h k
    unfold splitAtMatch at h
    split at h
    · exact absurd h (by simp)
    · rename_i hnp
      cases k with
      | zero => rw [List.drop_zero]; exact hnp
      | succ k' =>
        rw [List.drop_succ_cons]
        have hnone : splitAtMatch cs needle = none := by
          cases hsm : splitAtMatch cs needle with
          | none => rfl
          | some pr => rw [hsm] at h; simp at h
        exact ih hnone k'

theorem splitAtMatch_some (needle : Str) :
    ∀ (hay : Str) (pos : Nat) (rest : Str), splitAtMatch hay needle = some (pos, rest) →
      ∃ u, hay = u ++ needle ++ rest ∧ pos = utf8Len u ∧
        ∀ k, k < u.length → ¬ needle.isPrefixOf (hay.drop k) = true := by
  intro hay
  induction hay with
  | nil =>
    intro pos rest h
    unfold splitAtMatch at h
    split at h
    · rename_i he
      have hne : needle = [] := List.isEmpty_iff.mp (by simpa using he)
      simp only [Option.some.injEq, Prod.mk.injEq] at h
      obtain ⟨h1, h2⟩ := h
      refine ⟨[], ?_, by simp [← h1, utf8Len], ?_⟩
      · rw [hne, ← h2]
        rfl
      · intro k hk
        simp at hk
    · exact absurd h (by simp)
  | cons c cs ih =>
    intro pos rest h
    unfold splitAtMatch at h
    split at h
    · rename_i hp
      simp only [Option.some.injEq, Prod.mk.injEq] at h
      obtain ⟨h1, h2⟩ := h
      have hp' := hp
      rw [List.isPrefixOf_iff_prefix] at hp'
      obtain ⟨t, ht⟩ := hp'
      refine ⟨[], ?_, by simp [← h1, utf8Len], ?_⟩
      · rw [List.nil_append, ← h2, ← ht, List.drop_left]
      · intro k hk
        simp at hk
    · rename_i hnp
      cases hsm : splitAtMatch cs needle with
      | none => rw [hsm] at h; simp at h
      | some pr =>
        rw [hsm] at h
        simp only [Option.map_some', Option.some.injEq, Prod.mk.injEq] at h
        obtain ⟨h1, h2⟩ := h
        obtain ⟨u, hu, hpos, hmin⟩ := ih pr.1 pr.2 hsm
        refine ⟨c :: u, ?_, ?_, ?_⟩
        · rw [List.cons_append, List.cons_append, ← h2, ← hu]
        · rw [← h1, hpos, utf8Len_cons]
          omega
        · intro k hk
          cases k with
          | zero => rw [List.drop_zero]; exact hnp
          | succ k' =>
            rw [List.drop_succ_cons]
            exact hmin k' (by simpa using hk)

theorem map_eq_append_split {f : Char → Char} :
    ∀ {l u v : Str}, l.map f = u ++ v →
      ∃ a b, l = a ++ b ∧ a.map f = u ∧ b.map f = v := by
  intro l
  induction l with
  | nil =>
    intro u v h
    simp only [List.map_nil] at h
    obtain ⟨h1, h2⟩ := List.append_eq_nil.mp h.symm
    exact ⟨[], [], rfl, by simp [h1], by simp [h2]⟩
  | cons c cs ih =>
    intro u v h
    cases u with
    | nil =>
      exact ⟨[], c :: cs, rfl, rfl, by simpa using h⟩
    | cons x u' =>
      simp only [List.map_cons, List.cons_append, List.cons.injEq] at h
      obtain ⟨hx, hrest⟩ := h
      obtain ⟨a, b, hab, ha, hb⟩ := ih hrest
      exact ⟨c :: a, b, by rw [hab]; rfl, by simp [hx, ha], hb⟩

theorem utf8Len_map_of_size_eq {f : Char → Char} :
    ∀ {l : Str}, (∀ c ∈ l, (f c).utf8Size = c.utf8Size) → utf8Len (l.map f) = utf8Len l := by
  intro l
  induction l with
  | nil => intro _; rfl
  | cons c cs ih =>
    intro h
    rw [List.map_cons, utf8Len_cons, utf8Len_cons, h c (List.mem_cons_self c cs),
      ih (fun x hx => h x (List.mem_cons_of_mem c hx))]

theorem ascii_char_facts : ∀ n : Nat, n < 128 →
    (Char.toLower (Char.ofNat n)).utf8Size = (Char.ofNat n).utf8Size ∧
    rustLowerChar (Char.ofNat n) = [Char.toLower (Char.ofNat n)] := by decide

theorem rustLowerChar_of_ascii {c : Char} (h : asciiChar c = true) :
    rustLowerChar c = [Char.toLower c] := by
  have hn : c.toNat < 128 := by simpa [asciiChar] using h
  have := (ascii_char_facts c.toNat hn).2
  rwa [Char.ofNat_toNat] at this

theorem ascii_toLower_size {c : Char} (h : asciiChar c = true) :
    (Char.toLower c).utf8Size = c.utf8Size := by
  have hn : c.toNat < 128 := by simpa [asciiChar] using h
  have := (ascii_char_facts c.toNat hn).1
  rwa [Char.ofNat_toNat] at this

theorem toLowerRust_of_ascii :
    ∀ {s : Str}, asciiStr s = true → toLowerRust s = s.map Char.toLower := by
  intro s
  induction s with
  | nil => intro _; rfl
  | cons c cs ih =>
    intro h
    rw [asciiStr, List.all_cons, Bool.and_eq_true] at h
    rw [toLowerRust_cons, rustLowerChar_of_ascii h.1, ih h.2]
    rfl

theorem ascii_size_eq {s : Str} (h : asciiStr s = true) :
    ∀ c ∈ s, (Char.toLower c).utf8Size = c.utf8Size := by
  intro c hc
  rw [asciiStr, List.all_eq_true] at h
  exact ascii_toLower_size (h c hc)

theorem specScan_no_match (needle : Str) (f : Char → Char) :
    ∀ (s : Str) (fuel : Nat),
      (∀ k, ¬ needle.isPrefixOf ((s.map f).drop k) = true) →
      specScan needle f fuel s = s := by
  intro s
  induction s with
  | nil => intro fuel _; cases fuel <;> rfl
  | cons c cs ih =>
    intro fuel h
    cases fuel with
    | zero => rfl
    | succ g =>
      rw [specScan, if_neg (by simpa using h 0)]
      rw [ih g (fun k => by simpa using h (k + 1))]

theorem specScan_decomp (f : Char → Char) (needle : Str) (hne : needle ≠ []) :
    ∀ (A B C : Str) (fuel : Nat),
      B.map f = needle →
      (∀ k, k < A.length → ¬ needle.isPrefixOf (((A ++ (B ++ C)).map f).drop k) = true) →
      A.length < fuel →
      specScan needle f fuel (A ++ (B ++ C)) =
        A ++ (hlOpen ++ (B ++ (hlClose ++ specScan needle f (fuel - (A.length + 1)) C))) := by
  intro A
  induction A with
  | nil =>
    intro B C fuel hB hmin hfuel
    cases fuel with
    | zero => omega
    | succ g =>
      cases B with
      | nil => rw [List.map_nil] at hB; exact absurd hB.symm hne
      | cons b bs =>
        have hp : needle.isPrefixOf ((b :: (bs ++ C)).map f) = true := by
          rw [← List.cons_append, List.map_append, hB, List.isPrefixOf_iff_prefix]
          exact List.prefix_append needle _
        rw [List.nil_append, List.cons_append, specScan, if_pos hp]
        rw [← List.cons_append]
        have hlen : needle.length = (b :: bs).length := by rw [← hB, List.length_map]
        rw [hlen, List.take_left, List.drop_left]
        simp
  | cons a A' ih =>
    intro B C fuel hB hmin hfuel
    cases fuel with
    | zero => omega
    | succ g =>
      rw [List.cons_append, specScan, if_neg (by simpa using hmin 0 (by simp))]
      have hmin' : ∀ k, k < A'.length →
          ¬ needle.isPrefixOf (((A' ++ (B ++ C)).map f).drop k) = true := by
        intro k hk
        have := hmin (k + 1) (by simp only [List.length_cons]; omega)
        simpa using this
      have hfuel' : A'.length < g := by
        simp only [List.length_cons] at hfuel
        omega
      rw [ih B C g hB hmin' hfuel']
      have hfe : g + 1 - ((a :: A').length + 1) = g - (A'.length + 1) := by
        simp only [List.length_cons]
        omega
      rw [List.cons_append, hfe]

theorem highlightLoop_refine (f : Char → Char) (needle : Str) (hne : needle ≠ []) :
    ∀ (fuel1 : Nat) (lineDone lineRest acc : Str) (fuel2 : Nat),
      (∀ c ∈ lineRest, (f c).utf8Size = c.utf8Size) →
      lineRest.length < fuel1 → lineRest.length < fuel2 →
      highlightLoop (lineDone ++ lineRest) needle fuel1 (lineRest.map f) (utf8Len lineDone) acc =
        some (acc ++ specScan needle f fuel2 lineRest) := by
  intro fuel1
  induction fuel1 with
  | zero =>
    intro lineDone lineRest acc fuel2 hsz h1 h2
    omega
  | succ g ih =>
    intro lineDone lineRest acc fuel2 hsz h1 h2
    rw [highlightLoop]
    cases hsm : splitAtMatch (lineRest.map f) needle with
    | none =>
      rw [specScan_no_match needle f lineRest fuel2 (splitAtMatch_none needle _ hsm)]
      rw [dropBytesOpt_exact]
      rfl
    | some pr =>
      obtain ⟨u, hu, hpos, hmin⟩ := splitAtMatch_some needle _ pr.1 pr.2 hsm
      rw [List.append_assoc] at hu
      obtain ⟨A, D, hAD, hA, hD⟩ := map_eq_append_split hu
      obtain ⟨B, C, hBC, hB, hC⟩ := map_eq_append_split hD
      subst hBC
      have hszA : ∀ c ∈ A, (f c).utf8Size = c.utf8Size :=
        fun c hc => hsz c (by rw [hAD]; exact List.mem_append_left _ hc)
      have hszB : ∀ c ∈ B, (f c).utf8Size = c.utf8Size :=
        fun c hc => hsz c
          (by rw [hAD]; exact List.mem_append_right _ (List.mem_append_left _ hc))
      have hszC : ∀ c ∈ C, (f c).utf8Size = c.utf8Size :=
        fun c hc => hsz c
          (by rw [hAD]; exact List.mem_append_right _ (List.mem_append_right _ hc))
      have hposA : pr.1 = utf8Len A := by
        rw [hpos, ← hA, utf8Len_map_of_size_eq hszA]
      have hlenB : utf8Len needle = utf8Len B := by
        rw [← hB, utf8Len_map_of_size_eq hszB]
      have hul : u.length = A.length := by rw [← hA, List.length_map]
      have hBlen : 1 ≤ B.length := by
        cases B with
        | nil => rw [List.map_nil] at hB; exact absurd hB.symm hne
        | cons x xs => simp
      have hlens : lineRest.length = A.length + (B.length + C.length) := by
        rw [hAD]
        simp
      have hs1 : sliceBytes (lineDone ++ lineRest) (utf8Len lineDone)
          (utf8Len lineDone + pr.1) = some A := by
        rw [hposA, hAD, ← List.append_assoc]
        exact sliceBytes_exact lineDone A (B ++ C)
      have hs2 : sliceBytes (lineDone ++ lineRest) (utf8Len lineDone + pr.1)
          (utf8Len lineDone + pr.1 + utf8Len needle) = some B := by
        rw [hposA, hlenB, hAD]
        have hre : lineDone ++ (A ++ (B ++ C)) = (lineDone ++ A) ++ B ++ C := by
          simp [List.append_assoc]
        rw [hre, ← utf8Len_append]
        exact sliceBytes_exact (lineDone ++ A) B C
      show (sliceBytes (lineDone ++ lineRest) (utf8Len lineDone)
            (utf8Len lineDone + pr.1)).bind (fun pre =>
          (sliceBytes (lineDone ++ lineRest) (utf8Len lineDone + pr.1)
              (utf8Len lineDone + pr.1 + utf8Len needle)).bind (fun mid =>
            highlightLoop (lineDone ++ lineRest) needle g pr.2
              (utf8Len lineDone + pr.1 + utf8Len needle)
              (acc ++ pre ++ hlOpen ++ mid ++ hlClose))) =
        some (acc ++ specScan needle f fuel2 lineRest)
      rw [hs1, hs2]
      simp only [Option.some_bind]
      have hline : lineDone ++ lineRest = (lineDone ++ A ++ B) ++ C := by
        rw [hAD]
        simp [List.append_assoc]
      have hidx : utf8Len lineDone + pr.1 + utf8Len needle = utf8Len (lineDone ++ A ++ B) := by
        rw [hposA, hlenB, utf8Len_append, utf8Len_append]
      have hless1 : C.length < g := by omega
      have hless2 : C.length < fuel2 - (A.length + 1) := by omega
      have hminA : ∀ k, k < A.length →
          ¬ needle.isPrefixOf (((A ++ (B ++ C)).map f).drop k) = true := by
        intro k hk
        have := hmin k (by omega)
        rw [hAD] at this
        exact this
      have hspec : specScan needle f fuel2 lineRest =
          A ++ (hlOpen ++ (B ++ (hlClose ++ specScan needle f (fuel2 - (A.length + 1)) C))) := by
        rw [hAD]
        exact specScan_decomp f needle hne A B C fuel2 hB hminA (by omega)
      have hrec := ih (lineDone ++ A ++ B) C (acc ++ A ++ hlOpen ++ B ++ hlClose)
        (fuel2 - (A.length + 1)) hszC hless1 hless2
      rw [hline, ← hC, hidx, hspec, hrec]
      simp [List.append_assoc]

theorem highlight_refines (line pattern : Str) (ci : Bool)
    (h : ci = false ∨ (asciiStr line = true ∧ asciiStr pattern = true)) :
    highlight line pattern ci = some (specHL line pattern ci) := by
  by_cases hemp : pattern.isEmpty = true
  · rw [highlight, specHL, if_pos hemp, if_pos hemp]
  · have hpne : pattern ≠ [] := by
      cases pattern with
      | nil => simp at hemp
      | cons a as => simp
    cases ci with
    | false =>
      have href := highlightLoop_refine (fun c => c) pattern hpne
        (line.length + 1) [] line [] (line.length + 1)
        (fun c _ => rfl) (by omega) (by omega)
      rw [highlight, specHL, if_neg hemp, if_neg hemp]
      simp only [Bool.false_eq_true, if_false]
      simpa [utf8Len_nil] using href
    | true =>
      rcases h with hci | ⟨hl, hp⟩
      · exact absurd hci (by simp)
      · have hlm : toLowerRust line = line.map Char.toLower := toLowerRust_of_ascii hl
        have hpm : toLowerRust pattern = pattern.map Char.toLower := toLowerRust_of_ascii hp
        have hnne : toLowerRust pattern ≠ [] :=
          fun hc => hpne ((toLowerRust_eq_nil_iff pattern).mp hc)
        have href := highlightLoop_refine (fun c => Char.toLower c) (toLowerRust pattern) hnne
          (line.length + 1) [] line [] (line.length + 1)
          (fun c hc => ascii_size_eq hl c hc) (by omega) (by omega)
        rw [hpm] at href
        rw [highlight, specHL, if_neg hemp, if_neg hemp]
        simp only [if_true]
        rw [hlm, hpm, List.length_map]
        simpa [utf8Len_nil] using href

/-- C4 (amended): the emitted body is the raw line whenever `colored` is
unset, `invert_match` is set, or the line does not match; when highlighting
applies, the body is `highlight`'s output under the optional filename and
line-number prefixes; and `highlight` agrees with the spec's char-level
highlighting algorithm (`specHL`: every non-overlapping left-to-right
occurrence of the effective pattern wrapped, spans taken from the
original-case line, all other characters verbatim) in case-sensitive mode
and, in case-insensitive mode, whenever the line and the pattern are ASCII —
the regime in which Rust's lower-casing is one character to one character of
the same UTF-8 width, and on which the embedded folding is exact; the
counterexample shows the agreement fails once folded byte positions shift
against the original, as with `İ` (and likewise for other width-changing
mappings such as U+212A, which lie outside the ASCII hypothesis). -/
theorem c4_highlight_rendering (path : Str) (cfg : Config) (idx : Nat)
    (line pattern : Str) (ci : Bool) :
    ((cfg.colored && contains line (filePattern cfg) cfg.case_insensitive &&
        !cfg.invert_match) = false →
      renderLine path cfg idx line = some
        ((if cfg.show_filenames then path ++ (": ".data) else []) ++
          ((if cfg.show_line_numbers then (Nat.repr (idx + 1)).data ++ (": ".data) else []) ++
            line))) ∧
    ((cfg.colored && contains line (filePattern cfg) cfg.case_insensitive &&
        !cfg.invert_match) = true →
      renderLine path cfg idx line =
        (highlight line (filePattern cfg) cfg.case_insensitive).map (fun b =>
          (if cfg.show_filenames then path ++ (": ".data) else []) ++
            ((if cfg.show_line_numbers then (Nat.repr (idx + 1)).data ++ (": ".data) else []) ++
              b))) ∧
    ((ci = false ∨ (asciiStr line = true ∧ asciiStr pattern = true)) →
      highlight line pattern ci = some (specHL line pattern ci)) := by
  refine ⟨?_, ?_, highlight_refines line pattern ci⟩
  · intro hcond
    rw [renderLine, renderBody, hcond]
    simp
  · intro hcond
    rw [renderLine, renderBody, hcond]
    simp

/-- Witness for C4 at concrete inputs: a non-colored configuration emits the
raw line; a colored matching configuration emits the highlighted body; and
`highlight` agrees with the spec algorithm on an ASCII line. -/
theorem c4_highlight_rendering_witness :
    (renderLine ("a.txt".data) { pattern := ("wor".data), targets := [("a.txt".data)] } 0
        ("Hello world".data) = some ("Hello world".data)) ∧
    (renderLine ("a.txt".data)
        { colored := true, pattern := ("wor".data), targets := [("a.txt".data)] } 0
        ("Hello world".data) =
      (highlight ("Hello world".data) ("wor".data) false).map (fun b => b)) ∧
    highlight ("Hello world".data) ("WOR".data) true =
      some (specHL ("Hello world".data) ("WOR".data) true) := by
  refine ⟨?_, ?_, ?_⟩
  · have := (c4_highlight_rendering ("a.txt".data)
      { pattern := ("wor".data), targets := [("a.txt".data)] } 0
      ("Hello world".data) ("wor".data) false).1 (by decide)
    simpa using this
  · have := (c4_highlight_rendering ("a.txt".data)
      { colored := true, pattern := ("wor".data), targets := [("a.txt".data)] } 0
      ("Hello world".data) ("wor".data) false).2.1 (by decide)
    simpa using this
  · exact (c4_highlight_rendering ("a.txt".data)
      { pattern := ("wor".data), targets := [("a.txt".data)] } 0
      ("Hello world".data) ("WOR".data) true).2.2 (Or.inr ⟨by decide, by decide⟩)

/-- C4 counterexample: with case-insensitive highlighting of `"İabc"` for
pattern `"ab"`, the byte offsets found on the folded line (`"i̇abc"`) land
shifted on the original line, so the emitted body wraps the span `"bc"` —
which is not an occurrence of the effective pattern — instead of `"ab"`; the
spec's algorithm (`specHL`) wraps `"ab"`.  The claim's description of the body
is false on this input. -/
theorem c4_highlight_rendering_cex :
    renderLine ("f".data)
        { case_insensitive := true, colored := true, pattern := ("ab".data),
          targets := [("f".data)] } 0 ("İabc".data) =
      some (("İa".data) ++ (hlOpen ++ (("bc".data) ++ hlClose))) ∧
    specHL ("İabc".data) ("ab".data) true =
      ("İ".data) ++ (hlOpen ++ (("ab".data) ++ (hlClose ++ ("c".data)))) ∧
    (("İa".data) ++ (hlOpen ++ (("bc".data) ++ hlClose))) ≠
      (("İ".data) ++ (hlOpen ++ (("ab".data) ++ (hlClose ++ ("c".data))))) ∧
    toLowerRust ("bc".data) ≠ toLowerRust ("ab".data) := by
  refine ⟨by decide, by decide, by decide, by decide⟩

/-- C5 (amended): `highlight` terminates on every input in this model; the
empty pattern short-circuits to the original line unmodified; and the call
returns a string (no panic) in case-sensitive mode, and in case-insensitive
mode whenever the line and the pattern are ASCII — the regime in which
Rust's lower-casing is one character to one character of the same UTF-8
width, and on which the embedded folding is exact.  Full totality as claimed
fails: see the counterexample, where a folded byte position exceeds the
original line's length and the Rust byte slice panics (width-changing
mappings outside ASCII, such as U+212A, fail the same way and lie outside
this theorem's hypothesis). -/
theorem c5_highlight_totality (line pattern : Str) (ci : Bool) :
    highlight line [] ci = some line ∧
    ((ci = false ∨ (asciiStr line = true ∧ asciiStr pattern = true)) →
      (highlight line pattern ci).isSome = true) := by
  constructor
  · rw [highlight]
    simp
  · intro h
    rw [highlight_refines line pattern ci h]
    rfl

/-- Witness for C5 at concrete inputs, exercising the case-insensitive ASCII
branch of the hypothesis. -/
theorem c5_highlight_totality_witness :
    highlight ("Hello".data) [] true = some ("Hello".data) ∧
    (highlight ("Hello".data) ("ELL".data) true).isSome = true :=
  ⟨(c5_highlight_totality ("Hello".data) ("ELL".data) true).1,
   (c5_highlight_totality ("Hello".data) ("ELL".data) true).2 (Or.inr ⟨by decide, by decide⟩)⟩

/-- C5 counterexample: case-insensitive highlighting of `"İa"` with pattern
`"a"` finds the match at byte offset 3 of the folded line `"i̇a"` (4 bytes),
but the original line is only 3 bytes long, so the slice `&line[3..4]` is out
of range: the Rust program panics, modelled as `none`.  `highlight` is not
total on every line and pattern. -/
theorem c5_highlight_totality_cex : highlight ("İa".data) ("a".data) true = none := by
  decide

/-- Concrete configuration for the C6 witness: `-n -v`, pattern `Hello`. -/
def cfgW6 : Config :=
  { show_line_numbers := true, invert_match := true,
    pattern := ("Hello".data), targets := [("a.txt".data)] }

/-- Concrete file contents for the C6 witness. -/
def linesW6 : List Str := [("Hello world".data), ("goodbye world".data)]

/-- Witness for C6 at the spec's end-to-end scenario 2 (`-n -v Hello`). -/
theorem c6_output_assembly_witness :
    searchLines ("a.txt".data) cfgW6 linesW6 =
      ((linesW6.enum.filter (fun p => passes cfgW6 p.2)).map (fun p =>
        (if cfgW6.show_filenames then ("a.txt".data) ++ (": ".data) else []) ++
          ((if cfgW6.show_line_numbers then (Nat.repr (p.1 + 1)).data ++ (": ".data) else []) ++
            ((renderBody cfgW6 p.2).getD p.2))), Outcome.ok) :=
  c6_output_assembly ("a.txt".data) cfgW6 linesW6 (by decide)

/-- Concrete configuration for the C7 witness. -/
def cfgW7 : Config := { pattern := ("x".data), targets := [("a".data), ("nope.txt".data)] }

/-- Concrete run for the C7 witness: one readable file, one failing file. -/
def filesW7 : List (Str × List (Except Str Str)) :=
  [(("a".data), [Except.ok ("x".data)]),
   (("nope.txt".data), [Except.error ("missing".data)])]

/-- Witness for C7 at a concrete run with a failing second file. -/
theorem c7_per_file_isolation_witness :
    (runTrace cfgW7 filesW7).2 = false ∧
    (runTrace cfgW7 filesW7).1 = filesW7.flatMap (fun f => (fileTrace cfgW7 f).1) ∧
    errEvents (runTrace cfgW7 filesW7).1 = filesW7.filterMap (fun f =>
      match (scanFrom f.1 cfgW7 0 f.2).2 with
      | Outcome.readErr e => some (failMsg f.1 e)
      | _ => none) :=
  c7_per_file_isolation cfgW7 filesW7 (by decide)

/-- Concrete subtree for the C8 witness. -/
def treeW8 : FSTree := FSTree.dir ("d".data) [FSTree.file ("d/a".data)]

/-- Concrete filesystem for the C8 witness: a directory `d` holding `d/a`. -/
def fsW8 : Str → Option FSTree := fun t => if t = ("d".data) then some treeW8 else none

/-- Non-recursive configuration for the C8 witness. -/
def cfgW8a : Config := { pattern := ("x".data), targets := [("d".data), ("b.txt".data)] }

/-- Recursive configuration for the C8 witness. -/
def cfgW8b : Config :=
  { recursive := true, pattern := ("x".data), targets := [("d".data), ("b.txt".data)] }

/-- Witness for C8: verbatim pass-through without `-r`, the membership
characterization with `-r`, and the exactly-once property on the walked tree. -/
theorem c8_target_expansion_witness :
    gatherFiles cfgW8a fsW8 = cfgW8a.targets ∧
    (("d/a".data) ∈ gatherFiles cfgW8b fsW8 ↔
      ∃ t ∈ cfgW8b.targets,
        (∃ tr, dirTreeAt fsW8 t = some tr ∧ ReachFile tr ("d/a".data)) ∨
        (dirTreeAt fsW8 t = none ∧ ("d/a".data) = t)) ∧
    (walkFiles treeW8).Nodup := by
  refine ⟨(c8_target_expansion cfgW8a fsW8).1 rfl,
    (c8_target_expansion cfgW8b fsW8).2.1 rfl ("d/a".data),
    (c8_target_expansion cfgW8b fsW8).2.2 ("d".data) treeW8 rfl ?_⟩
  simp [pathsList, treeW8]

/-- Witness for C9: `-n` placed after the pattern and targets produces the
same configuration as `-n` placed before them. -/
theorem c9_flag_position_independent_witness :
    parse_args [("-n".data), ("wor".data), ("a.txt".data)] =
      parse_args [("wor".data), ("a.txt".data), ("-n".data)] :=
  c9_flag_position_independent [("-n".data), ("wor".data), ("a.txt".data)]
    [("wor".data), ("a.txt".data), ("-n".data)] (fun _ => Iff.rfl) rfl

/-- Concrete configuration for the C10 witness. -/
def cfgW10 : Config := { pattern := ("o".data), targets := [("a.txt".data)] }

/-- Successfully-read prefix of the failing file in the C10 witness. -/
def goodW10 : List Str := [("foo".data), ("bar".data)]

/-- Unreached content after the read error in the C10 witness. -/
def junkW10 : List (Except Str Str) := [Except.ok ("oops".data)]

/-- Witness for C10: the line emitted before the read error stays on the
trace, the error message follows it, and the rest of the file is ignored. -/
theorem c10_partial_output_witness :
    runTrace cfgW10
        [(("a.txt".data), goodW10.map Except.ok ++ Except.error ("bad".data) :: junkW10)] =
      ((searchLines ("a.txt".data) cfgW10 goodW10).1.map Ev.out ++
        (Ev.err (failMsg ("a.txt".data) ("bad".data)) :: (runTrace cfgW10 []).1),
       (runTrace cfgW10 []).2) :=
  c10_partial_output cfgW10 ("a.txt".data) goodW10 ("bad".data) junkW10 [] (by decide)

end Grep
